import Mathlib

/-!
Verification of the Markdown section/word-count/figure-extraction logic of
`honolulu_abstract.py` (norok2/ismrm_abstract).

Shallow embedding conventions:
* a decoded text line (Python `str`) is a `List Char`; a document is the
  `List (List Char)` produced by `splitlines()` (file opening and decoding
  are I/O and happen before the logic under study);
* Python `list.append` is `++ [x]`, `list.pop()` pops the last element and
  is fallible (raising `IndexError` is modelled by `Option`, `none` meaning
  the exception propagates out of the function);
* Python `dict` used by `find_figures` is an association list with
  overwrite-on-assignment semantics;
* the module-level default arguments (`D_SKIP_TOKENS`, `D_HDR_TOKENS`,
  `D_HDR_TOKENS_NL`) are baked in, exactly as every call site in the
  program uses them.
-/

/-- Python `line.startswith(tok)` on char lists: `startsTok tok line`. -/
def startsTok : List Char → List Char → Bool
  | [], _ => true
  | _ :: _, [] => false
  | t :: ts, c :: cs => t == c && startsTok ts cs

/-- Python `line.endswith(tok)` (used only to state claims about report
lines, e.g. the `NOT FOUND!` marker). -/
def endsWithTok (tok l : List Char) : Bool :=
  startsTok tok.reverse l.reverse

/-- Python `pat in s` (substring containment) on char lists. -/
def hasSubTok (pat : List Char) : List Char → Bool
  | [] => startsTok pat []
  | c :: cs => startsTok pat (c :: cs) || hasSubTok pat cs

/-- Python `s.strip()`: remove leading and trailing whitespace. -/
def stripTok (l : List Char) : List Char :=
  ((l.dropWhile Char.isWhitespace).reverse.dropWhile Char.isWhitespace).reverse

/-- Python `enumerate(xs, n)`. -/
def enumFromTok : Nat → List (List Char) → List (Nat × List Char)
  | _, [] => []
  | n, t :: ts => (n, t) :: enumFromTok (n + 1) ts

/-- `D_SKIP_TOKENS = ('#', '!', '[')` from the source. -/
def D_SKIP_TOKENS : List (List Char) := [['#'], ['!'], ['[']]

/-- `D_HDR_TOKENS = tuple('#' * (n + 1) + ' ' for n in range(6))` from the source. -/
def D_HDR_TOKENS : List (List Char) :=
  (List.range 6).map (fun n => List.replicate (n + 1) '#' ++ [' '])

/-- `D_HDR_TOKENS_NL = ('==', '--')` from the source. -/
def D_HDR_TOKENS_NL : List (List Char) := [['=', '='], ['-', '-']]

/-- `D_SKIP_SECTIONS` from the source. -/
def D_SKIP_SECTIONS : List (List Char) :=
  ["Authors".toList, "Synopsis".toList, "References".toList,
   "Acknowledgements".toList, "Figure".toList, "Table".toList]

/-- A section block as built during the scan of `word_count`, before the
word-counting pass attaches `num_words` and `skip` (in Python the same
mutable dict). -/
structure ScanBlock where
  title : List Char
  level : Nat
  text : List (List Char)
deriving DecidableEq, Repr

/-- The mutable state of the scanning loop of `word_count`:
`blocks`, `lines` and `len_last_line`. -/
structure ScanState where
  blocks : List ScanBlock
  lines : List (List Char)
  len_last_line : Nat
deriving DecidableEq, Repr

/-- `blocks[-1]['text'] = lines` (no-op on an empty list, which the source
guards with `len(blocks) > 0`). -/
def setLastText : List ScanBlock → List (List Char) → List ScanBlock
  | [], _ => []
  | [b], ls => [{ b with text := ls }]
  | b :: b2 :: bs, ls => b :: setLastText (b2 :: bs) ls

/-- The block-opening statements of `word_count` (lines 566-570 and 583-586):
`if len(blocks) > 0: blocks[-1]['text'] = lines; lines = []` followed by
`blocks.append(...)` of a new dict with the title, the level and an
empty text.  Note that
when `blocks` is empty the accumulated `lines` are NOT reset. -/
def openBlock (blocks : List ScanBlock) (lines : List (List Char))
    (title : List Char) (level : Nat) : List ScanBlock × List (List Char) :=
  if blocks = [] then (blocks ++ [⟨title, level, []⟩], lines)
  else (setLastText blocks lines ++ [⟨title, level, []⟩], [])

/-- One iteration of `for i, token in enumerate(hdr_tokens)` in `word_count`. -/
def hdrStep (l : List Char) (st : List ScanBlock × List (List Char))
    (it : Nat × List Char) : List ScanBlock × List (List Char) :=
  if startsTok it.2 l then openBlock st.1 st.2 (l.drop it.2.length) it.1 else st

/-- The body of the `for line in ...` loop of `word_count` (lines 563-590).
`none` models the uncaught `IndexError` of `lines.pop()` on an empty
accumulator.  The Setext fold returns, besides `was_title`, the final value
of the loop variable `i`, which Python leaks out of the
`for i, token in enumerate(hdr_tokens_nl)` loop: it is the index of the
last token, not of the matching one. -/
def stepLine (st : ScanState) (l : List Char) : Option ScanState :=
  let p := (enumFromTok 0 D_HDR_TOKENS).foldl (hdrStep l) (st.blocks, st.lines)
  if D_SKIP_TOKENS.any (fun t => startsTok t l) then
    some ⟨p.1, p.2, st.len_last_line⟩
  else
    let q := (enumFromTok 0 D_HDR_TOKENS_NL).foldl
      (fun (r : Bool × Nat) (it : Nat × List Char) =>
        (r.1 || (l.length == st.len_last_line && startsTok it.2 l), it.1))
      (false, 0)
    if q.1 then
      match p.2.getLast? with
      | none => none
      | some title =>
        let r := openBlock p.1 p.2.dropLast title q.2
        some ⟨r.1, r.2, l.length⟩
    else if 0 < l.length then
      some ⟨p.1, p.2 ++ [l], l.length⟩
    else
      some ⟨p.1, p.2, l.length⟩

/-- The scanning loop of `word_count` over all lines. -/
def scanAux : ScanState → List (List Char) → Option ScanState
  | st, [] => some st
  | st, l :: ls =>
    match stepLine st l with
    | none => none
    | some st' => scanAux st' ls

/-- Python `sep.join(xs)` on char lists. -/
def pyJoin (sep : List Char) : List (List Char) → List Char
  | [] => []
  | [x] => x
  | x :: y :: xs => x ++ sep ++ pyJoin sep (y :: xs)

/-- Python `s.split()` (no separator): split on whitespace runs, discarding
empty fields.  The first argument is the reversed accumulator of the word
being read. -/
def pySplitAux : List Char → List Char → List (List Char)
  | acc, [] => if acc = [] then [] else [acc.reverse]
  | acc, c :: cs =>
    if Char.isWhitespace c then
      if acc = [] then pySplitAux [] cs else acc.reverse :: pySplitAux [] cs
    else pySplitAux (c :: acc) cs

/-- Python `s.split()`. -/
def pySplitWs (l : List Char) : List (List Char) := pySplitAux [] l

/-- A finished block of `word_count` (the dict with all five keys). -/
structure Block where
  title : List Char
  level : Nat
  text : List (List Char)
  num_words : Nat
  skip : Bool
deriving DecidableEq, Repr

/-- The per-block body of the counting loop of `word_count` (lines 596-603):
`num_words = len(' '.join(block['text']).split())` and `skip` is true iff
some skip-section name occurs in the title (the Python loop breaks at the
first hit, which `List.any` reproduces). -/
def mkBlock (skip_sections : List (List Char)) (sb : ScanBlock) : Block :=
  { title := sb.title, level := sb.level, text := sb.text,
    num_words := (pySplitWs (pyJoin [' '] sb.text)).length,
    skip := skip_sections.any (fun s => hasSubTok s sb.title) }

/-- `word_count` (lines 559-607) on the decoded, split lines of the input
file.  Returns `(blocks, wc_partial, wc_total)`; `none` models the
`IndexError` raised by the unguarded `lines.pop()`. -/
def word_count (docLines : List (List Char)) (skip_sections : List (List Char)) :
    Option (List Block × Nat × Nat) :=
  match scanAux ⟨[], [], 0⟩ docLines with
  | none => none
  | some st =>
    let blocks := (setLastText st.blocks st.lines).map (mkBlock skip_sections)
    some (blocks,
      blocks.foldl (fun a b => a + (if b.skip then 0 else b.num_words)) 0,
      blocks.foldl (fun a b => a + b.num_words) 0)

/-- The section splitter exactly as claim C2 describes it: identical to the
scan of `word_count` except that the body accumulator is reset whenever a
block opens, so that lines appearing before the first heading are discarded
(they "belong to no block").  Modelled from the claim's words, to be
compared with `openBlock` (the source's behaviour). -/
def openBlockDrop (blocks : List ScanBlock) (lines : List (List Char))
    (title : List Char) (level : Nat) : List ScanBlock × List (List Char) :=
  (setLastText blocks lines ++ [⟨title, level, []⟩], [])

/-- `hdrStep` with the claim-variant block opening. -/
def hdrStepDrop (l : List Char) (st : List ScanBlock × List (List Char))
    (it : Nat × List Char) : List ScanBlock × List (List Char) :=
  if startsTok it.2 l then openBlockDrop st.1 st.2 (l.drop it.2.length) it.1 else st

/-- `stepLine` with the claim-variant block opening. -/
def stepLineDrop (st : ScanState) (l : List Char) : Option ScanState :=
  let p := (enumFromTok 0 D_HDR_TOKENS).foldl (hdrStepDrop l) (st.blocks, st.lines)
  if D_SKIP_TOKENS.any (fun t => startsTok t l) then
    some ⟨p.1, p.2, st.len_last_line⟩
  else
    let q := (enumFromTok 0 D_HDR_TOKENS_NL).foldl
      (fun (r : Bool × Nat) (it : Nat × List Char) =>
        (r.1 || (l.length == st.len_last_line && startsTok it.2 l), it.1))
      (false, 0)
    if q.1 then
      match p.2.getLast? with
      | none => none
      | some title =>
        let r := openBlockDrop p.1 p.2.dropLast title q.2
        some ⟨r.1, r.2, l.length⟩
    else if 0 < l.length then
      some ⟨p.1, p.2 ++ [l], l.length⟩
    else
      some ⟨p.1, p.2, l.length⟩

/-- The scanning loop with the claim-variant step. -/
def scanAuxDrop : ScanState → List (List Char) → Option ScanState
  | st, [] => some st
  | st, l :: ls =>
    match stepLineDrop st l with
    | none => none
    | some st' => scanAuxDrop st' ls

/-- `word_count` as claim C2 describes it (pre-first-heading lines belong to
no block); everything else is shared with the source embedding. -/
def wordCountDropPre (docLines : List (List Char)) (skip_sections : List (List Char)) :
    Option (List Block × Nat × Nat) :=
  match scanAuxDrop ⟨[], [], 0⟩ docLines with
  | none => none
  | some st =>
    let blocks := (setLastText st.blocks st.lines).map (mkBlock skip_sections)
    some (blocks,
      blocks.foldl (fun a b => a + (if b.skip then 0 else b.num_words)) 0,
      blocks.foldl (fun a b => a + b.num_words) 0)

/-- `noHeadings llll doc` holds when, running the detection rules of
`word_count` from previous-line length `llll`, no line of `doc` is
recognized as a heading: no line starts with an ATX prefix, and no
non-skip line both starts with a Setext underline token and has the length
of the previous non-skip line (skip lines do not update `len_last_line`,
mirroring the `continue` in the source). -/
def noHeadings : Nat → List (List Char) → Bool
  | _, [] => true
  | llll, l :: ls =>
    !(D_HDR_TOKENS.any (fun t => startsTok t l)) &&
    (if D_SKIP_TOKENS.any (fun t => startsTok t l) then noHeadings llll ls
     else !(D_HDR_TOKENS_NL.any (fun t => l.length == llll && startsTok t l)) &&
       noHeadings l.length ls)

/-- The suffix `\]\[([0-9]+)\]\]\[\1\]` of `pattern_ref` in `find_figures`,
matched at the start of `rest` (trailing characters are allowed, as with
`re.match`).  The digit run is greedy; since `]` is not a digit this parse
is the only possible one.  Returns the captured label. -/
def refTail (rest : List Char) : Option (List Char) :=
  match rest with
  | ']' :: '[' :: r2 =>
    let ds := r2.takeWhile Char.isDigit
    let r3 := r2.dropWhile Char.isDigit
    if ds = [] then none
    else match r3 with
      | ']' :: ']' :: '[' :: r4 =>
        if startsTok (ds ++ [']']) r4 then some ds else none
      | _ => none
  | _ => none

/-- Greedy `.*` before `refTail`: try the longest prefix first (the regex
engine backtracks from the longest), i.e. the latest split position. -/
def greedyRef (rest : List Char) : Nat → Option (List Char)
  | 0 => refTail rest
  | k + 1 =>
    match refTail (rest.drop (k + 1)) with
    | some ds => some ds
    | none => greedyRef rest k

/-- `re.match(pattern_ref, line)` with
`pattern_ref = '^\[!\[.*\]\[(?P<ref>[0-9]+)\]\]\[(?P=ref)\]'`:
a referenced image; emits the numeric label. -/
def matchRef (l : List Char) : Option (List Char) :=
  match l with
  | '[' :: '!' :: '[' :: rest => greedyRef rest rest.length
  | _ => none

/-- `re.match(pattern_ref_uri, line)` with
`pattern_ref_uri = '^\[(?P<ref>[0-9]+)\]:(?P<uri>.*)'`:
a reference-definition line; returns (label, uri), the uri being the whole
remainder of the line. -/
def matchRefUri (l : List Char) : Option (List Char × List Char) :=
  match l with
  | '[' :: rest =>
    let ds := rest.takeWhile Char.isDigit
    let r2 := rest.dropWhile Char.isDigit
    if ds = [] then none
    else match r2 with
      | ']' :: ':' :: uri => some (ds, uri)
      | _ => none
  | _ => none

/-- For the second `.*` of `pattern_uri`: greedy up to the LAST `)` of the
remainder; returns the characters before it, or `none` when no `)` occurs. -/
def beforeLastParen : List Char → Option (List Char)
  | [] => none
  | c :: cs =>
    match beforeLastParen cs with
    | some ys => some (c :: ys)
    | none => if c = ')' then some [] else none

/-- The suffix `\]\((?P<uri>.*)\)` of `pattern_uri`, matched at the start of
`rest`. -/
def uriTail (rest : List Char) : Option (List Char) :=
  match rest with
  | ']' :: '(' :: r2 => beforeLastParen r2
  | _ => none

/-- Greedy `.*` before `uriTail`, longest first. -/
def greedyUri (rest : List Char) : Nat → Option (List Char)
  | 0 => uriTail rest
  | k + 1 =>
    match uriTail (rest.drop (k + 1)) with
    | some uri => some uri
    | none => greedyUri rest k

/-- `re.match(pattern_uri, line)` with
`pattern_uri = '^!\[.*\]\((?P<uri>.*)\)'`: an inline image; emits the uri. -/
def matchUri (l : List Char) : Option (List Char) :=
  match l with
  | '!' :: '[' :: rest => greedyUri rest rest.length
  | _ => none

/-- The mutable state of the scanning loop of `find_figures`:
`figs`, `fig_refs` (a dict) and `fig_uris`. -/
structure FigState where
  figs : List (List Char)
  fig_refs : List (List Char × List Char)
  fig_uris : List (List Char)
deriving DecidableEq, Repr

/-- Python `d[k] = v` on an association list (overwrite or append). -/
def dictSet (m : List (List Char × List Char)) (k v : List Char) :
    List (List Char × List Char) :=
  match m with
  | [] => [(k, v)]
  | (k0, v0) :: rest => if k0 = k then (k0, v) :: rest else (k0, v0) :: dictSet rest k v

/-- Python `d[k]` lookup / `k in d` on an association list. -/
def dictFind (m : List (List Char × List Char)) (k : List Char) :
    Option (List Char) :=
  match m with
  | [] => none
  | (k0, v0) :: rest => if k0 = k then some v0 else dictFind rest k

/-- The body of the `for line in ...` loop of `find_figures` (lines 637-649):
the three patterns are tried in source order on every line. -/
def figStep (st : FigState) (line : List Char) : FigState :=
  let st1 :=
    match matchRef line with
    | some ref => { st with figs := st.figs ++ [ref] }
    | none => st
  let st2 :=
    match matchRefUri line with
    | some rf => { st1 with fig_refs := dictSet st1.fig_refs rf.1 rf.2 }
    | none => st1
  match matchUri line with
  | some uri => { st2 with fig_uris := st2.fig_uris ++ [uri], figs := st2.figs ++ [uri] }
  | none => st2

/-- `find_figures` (lines 611-654) on the decoded, split lines of the input
file: scan all lines, then resolve every emitted entry that is a key of
`fig_refs` to the stripped stored uri (lines 650-652). -/
def find_figures (docLines : List (List Char)) : List (List Char) :=
  let st := docLines.foldl figStep ⟨[], [], []⟩
  st.figs.map (fun fig =>
    match dictFind st.fig_refs fig with
    | some uri => stripTok uri
    | none => fig)


/-- `D_LIMITS['wc_tot'] = 750` from the source. -/
def D_LIMITS_wc_tot : Nat := 750

/-- `D_LIMITS['fig_size'] = 2e6` bytes from the source (an exact integer,
although Python stores it as a float). -/
def D_LIMITS_fig_size : Nat := 2000000

/-- The condition of the total-word-count check of `honolulu` (line 861):
`num_words_total <= limits['wc_tot']`.  Note that the variable
`num_words_total` receives the SECOND return value of `word_count`, i.e.
the partial count `wc_partial`. -/
def totalWordCountTest (num_words_total : Nat) : Bool :=
  decide (num_words_total ≤ D_LIMITS_wc_tot)

/-- `'{:<48s}'`-style left justification (pad with spaces on the right). -/
def padRightTo (l : List Char) (n : Nat) : List Char :=
  l ++ List.replicate (n - l.length) ' '

/-- `'{:>18s}'`-style right justification (pad with spaces on the left). -/
def padLeftTo (l : List Char) (n : Nat) : List Char :=
  List.replicate (n - l.length) ' ' ++ l

/-- Models the Python float formatting of `n / 1e6` with one decimal digit
followed by `MB`: the byte count rendered in
megabytes with one decimal digit.  The float division and its rounding are
approximated with integer arithmetic (rounding to nearest); the exact float
rounding of ties is not modelled and no claim depends on this text. -/
def sizeMB (n : Nat) : List Char :=
  let tenths := (n + 50000) / 100000
  (Nat.toDigits 10 (tenths / 10)) ++ '.' :: (Nat.toDigits 10 (tenths % 10)) ++ " MB".toList

/-- The text `'NOT FOUND!'` reported for a missing figure file. -/
def notFoundText : List Char := "NOT FOUND!".toList

/-- The per-figure size check of `honolulu` (lines 897-909).  `file_size`
abstracts the filesystem: it maps a figure entry (after
`os.path.expanduser(os.path.realpath(fig))`) to its byte size, or `none`
when `os.path.isfile` is false.  Returns the pair
(condition passed to `_test_pass`, description text `txt`).  The missing
file is NOT an exception: `fig_size` is set to `-1`, the size text becomes
`'NOT FOUND!'` and the condition `0 <= fig_size <= limits['fig_size']` is
evaluated as usual. -/
def fig_check (file_size : List Char → Option Nat) (fig : List Char) :
    Bool × List Char :=
  let fig_size : Int :=
    match file_size fig with
    | some n => (n : Int)
    | none => -1
  let txt_fig : List Char :=
    match file_size fig with
    | some n => padLeftTo (sizeMB n) 8 ++ " / ".toList ++ padRightTo (sizeMB D_LIMITS_fig_size) 7
    | none => notFoundText
  let txt := padRightTo ('"' :: fig.take 46 ++ ['"']) 48 ++ "  ".toList ++ padLeftTo txt_fig 18
  (decide (0 ≤ fig_size ∧ fig_size ≤ (D_LIMITS_fig_size : Int)), txt)

/-- The `for fig in figs` loop of `honolulu` (lines 897-909): every figure
entry is checked in order, one `(condition, text)` pair appended per entry. -/
def fig_checks (file_size : List Char → Option Nat) (figs : List (List Char)) :
    List (Bool × List Char) :=
  figs.map (fig_check file_size)

/-- The aggregate verdict used by `gen_report` (line 766) and `honolulu`
(line 959): `all([test for test in tests if test is not None])`.  A test is
`Option Bool`; `none` is Python's `None` (informational). -/
def final_test (tests : List (Option Bool)) : Bool :=
  (tests.filterMap (fun t => t)).all (fun b => b)

/-- The CSS class chosen for a result line in HTML mode (lines 752-758):
`'green'` for a truthy test, `'red'` for a non-`None` falsy one, empty for
`None`. -/
def attrOf (test : Option Bool) : List Char :=
  match test with
  | some true => "green".toList
  | some false => "red".toList
  | none => []

/-- `line.replace(' ', '&nbsp;')`. -/
def nbspEscape (l : List Char) : List Char :=
  l.flatMap (fun c => if c = ' ' then "&nbsp;".toList else [c])

/-- One HTML body line of `gen_report` (line 759), with the default empty
`prefix` and `suffix`:
`'- <span class="ATTR">LINE</span>'` followed by a newline. -/
def htmlLine (line : List Char) (test : Option Bool) : List Char :=
  "- <span class=\"".toList ++ attrOf test ++ "\">".toList ++
    nbspEscape line ++ "</span>".toList ++ ['\n']

/-- `'OK'` / `'ERR'` (line 768). -/
def resultWord (b : Bool) : List Char :=
  if b then "OK".toList else "ERR".toList

/-- `gen_report` (lines 710-774) with the defaults used by `honolulu`:
`title='Test Results'`, the default `final` template (which renders as
`Final Result: ` followed by `OK` or `ERR`), `hdr_style=+2` (so the heading token is
`D_HDR_TOKENS[1] = '## '`), empty `prefix`/`suffix`.  In HTML mode the
final-line width is the empty format width (no padding); in plain mode it
is the length of the last description line. -/
def gen_report (lines : List (List Char)) (tests : List (Option Bool))
    (use_html : Bool) : List Char :=
  let text := ['\n', '\n']
  let text := text ++ (D_HDR_TOKENS.getD 1 []) ++ "Test Results".toList ++ ['\n']
  let text := text ++
    (if use_html then
      (lines.zip tests).foldl (fun acc p => acc ++ htmlLine p.1 p.2) []
    else pyJoin ['\n'] lines)
  let text := text ++ ['\n']
  if lines = [] then text
  else
    let ft := final_test tests
    let n := (lines.getLastD []).length
    let fin := "Final Result: ".toList ++ resultWord ft
    let text := text ++ ['\n'] ++ List.replicate n '-' ++ ['\n']
    let text := text ++
      (if use_html then
        "<span class=\"".toList ++ (if ft then "green".toList else "red".toList) ++
          "\">".toList
      else [])
    let text := text ++ (if use_html then fin else padLeftTo fin n)
    text ++ (if use_html then "</span>".toList else [])

/-- Split a text on newline characters (the line structure of a report; the
measuring device for claim C9, not part of the source). -/
def splitNl : List Char → List (List Char)
  | [] => [[]]
  | c :: cs =>
    if c = '\n' then [] :: splitNl cs
    else
      match splitNl cs with
      | s :: ss => (c :: s) :: ss
      | [] => [[c]]

/-- The number of non-blank lines of a text. -/
def countNonEmptyLines (l : List Char) : Nat :=
  ((splitNl l).filter (fun s => !s.isEmpty)).length


/-! ## Supporting lemmas -/

theorem startsTok_self_append (p r : List Char) : startsTok p (p ++ r) = true := by
  induction p with
  | nil => rfl
  | cons c cs ih => simp [startsTok, ih]

theorem endsWithTok_append_self (x p : List Char) : endsWithTok p (x ++ p) = true := by
  rw [endsWithTok, List.reverse_append]
  exact startsTok_self_append _ _

theorem snd_mem_of_mem_enumFromTok :
    ∀ (n : Nat) (ts : List (List Char)) (it : Nat × List Char),
      it ∈ enumFromTok n ts → it.2 ∈ ts := by
  intro n ts
  induction ts generalizing n with
  | nil => intro it h; cases h
  | cons t ts ih =>
    intro it h
    rw [enumFromTok, List.mem_cons] at h
    rcases h with h | h
    · subst h; exact List.mem_cons_self _ _
    · exact List.mem_cons_of_mem _ (ih (n + 1) it h)

theorem foldl_hdrStep_id (l : List Char) :
    ∀ (toks : List (Nat × List Char)) (st : List ScanBlock × List (List Char)),
      (∀ it ∈ toks, startsTok it.2 l = false) →
      toks.foldl (hdrStep l) st = st := by
  intro toks
  induction toks with
  | nil => intro st _; rfl
  | cons it toks ih =>
    intro st h
    rw [List.foldl_cons]
    have h0 : hdrStep l st it = st := by
      rw [hdrStep, h it (List.mem_cons_self _ _)]
      simp
    rw [h0]
    exact ih st fun x hx => h x (List.mem_cons_of_mem _ hx)

/-! ## Claims -/

/-- C1 (code bug): the spec says the Setext block level is determined by
which underline token matched (`=` gives 0, `-` gives 1).  In the source
the level is the Python loop variable `i` leaked out of the completed
`for i, token in enumerate(hdr_tokens_nl)` loop, which is always the index
of the LAST token, `1`.  Evaluation at the failing input: an `=`-underlined
heading also receives level 1. -/
theorem c1_setext_level_eval :
    word_count ["abc".toList, "===".toList] [] =
      some ([⟨"abc".toList, 1, [], 0, false⟩], 0, 0) ∧
    word_count ["abc".toList, "---".toList] [] =
      some ([⟨"abc".toList, 1, [], 0, false⟩], 0, 0) := by decide

/-- C2, counterexample: on the document `pre / # A / x / # B / y` the line
`pre`, which appears before the first heading, ends up in block `A`'s
`text` (and in its word count), whereas the claim says such lines belong to
no block; the claim-faithful variant `wordCountDropPre` produces a
different result. -/
theorem c2_counterexample :
    word_count ["pre".toList, "# A".toList, "x".toList, "# B".toList, "y".toList] [] =
      some ([⟨"A".toList, 0, ["pre".toList, "x".toList], 2, false⟩,
             ⟨"B".toList, 0, ["y".toList], 1, false⟩], 3, 3) ∧
    wordCountDropPre ["pre".toList, "# A".toList, "x".toList, "# B".toList, "y".toList] [] =
      some ([⟨"A".toList, 0, ["x".toList], 1, false⟩,
             ⟨"B".toList, 0, ["y".toList], 1, false⟩], 2, 2) ∧
    word_count ["pre".toList, "# A".toList, "x".toList, "# B".toList, "y".toList] [] ≠
      wordCountDropPre ["pre".toList, "# A".toList, "x".toList, "# B".toList, "y".toList] [] := by
  decide

/-- C5: the total-word-count check of `honolulu` compares the partial word
count to the `wc_tot` limit with an inclusive `<=`: 750 passes, 751 fails. -/
theorem c5_wc_tot_inclusive :
    (∀ n : Nat, totalWordCountTest n = true ↔ n ≤ D_LIMITS_wc_tot) ∧
    totalWordCountTest 750 = true ∧ totalWordCountTest 751 = false :=
  ⟨fun n => by simp [totalWordCountTest], by decide, by decide⟩

/-- C6: `find_figures` resolves the referenced image `[![alt][1]][1]`
through the definition line `[1]: figs/a.png` whether the definition comes
after or before the use, stripping the surrounding whitespace of the stored
uri; with no matching definition the emitted label `1` is left verbatim. -/
theorem c6_figure_reference_resolution :
    find_figures ["[![alt][1]][1]".toList, "[1]: figs/a.png".toList] =
      ["figs/a.png".toList] ∧
    find_figures ["[1]: figs/a.png".toList, "[![alt][1]][1]".toList] =
      ["figs/a.png".toList] ∧
    find_figures ["[![alt][1]][1]".toList] = ["1".toList] := by decide

/-- C9, counterexample: for one description the plain-mode report has 4
non-blank lines (title, the description, a dash separator, the summary),
not the 1 + 1 + 1 the claim states. -/
theorem c9_counterexample :
    countNonEmptyLines (gen_report ["abc".toList] [some true] false) = 4 ∧
    countNonEmptyLines (gen_report ["abc".toList] [some true] false) ≠ 1 + 1 + 1 := by
  decide

/-- C10, counterexample: `lines.pop()` in the Setext branch is NOT guarded
by non-emptiness of the accumulator; on `# A / ab / # B / ==` (a
matching-length underline right after a heading, when the accumulator has
just been flushed) `word_count` raises `IndexError` (modelled by `none`)
instead of returning. -/
theorem c10_counterexample :
    word_count ["# A".toList, "ab".toList, "# B".toList, "==".toList] [] = none := by
  decide

/-- C7: the aggregate verdict `all([test for test in tests if test is not
None])` is fail (`false`) iff some non-`None` test is fail, and inserting
or removing informational `None` verdicts never changes it. -/
theorem c7_aggregate_verdict :
    ∀ tests : List (Option Bool),
      (final_test tests = false ↔ some false ∈ tests) ∧
      ∀ l1 l2 : List (Option Bool),
        final_test (l1 ++ none :: l2) = final_test (l1 ++ l2) := by
  intro tests
  constructor
  · induction tests with
    | nil => simp [final_test]
    | cons t ts ih =>
      cases t with
      | none =>
        simpa [final_test, List.filterMap_cons] using ih
      | some b =>
        cases b <;>
          simp_all [final_test, List.filterMap_cons]
  · intro l1 l2
    simp [final_test, List.filterMap_append, List.filterMap_cons]

/-- C8: when the (resolved) figure path is not a file, the per-figure check
produces a failing verdict whose description line ends in `NOT FOUND!`
instead of a numeric size comparison, no exception escapes, and the loop
still produces one result per figure entry. -/
theorem c8_missing_figure :
    ∀ (file_size : List Char → Option Nat) (figs : List (List Char)) (fig : List Char),
      file_size fig = none →
        (fig_check file_size fig).1 = false ∧
        endsWithTok notFoundText (fig_check file_size fig).2 = true ∧
        (fig_checks file_size figs).length = figs.length := by
  intro fs figs fig h
  refine ⟨?_, ?_, by simp [fig_checks]⟩
  · simp [fig_check, h]
  · simp only [fig_check, h, padLeftTo]
    rw [← List.append_assoc]
    exact endsWithTok_append_self _ _

/-- C8 witness: a concrete filesystem with no files and the figure entry
`missing.png`. -/
theorem c8_missing_figure_witness :
    ((fun _ : List Char => (none : Option Nat)) "missing.png".toList = none) ∧
    ((fig_check (fun _ => none) "missing.png".toList).1 = false ∧
      endsWithTok notFoundText (fig_check (fun _ => none) "missing.png".toList).2 = true ∧
      (fig_checks (fun _ => none) ["missing.png".toList]).length =
        [("missing.png".toList)].length) :=
  ⟨rfl, c8_missing_figure (fun _ => none) ["missing.png".toList] "missing.png".toList rfl⟩

/-- Folding the partial word count never exceeds folding the full count
(auxiliary for C4). -/
theorem foldl_partial_le_full :
    ∀ (bs : List Block) (a c : Nat), a ≤ c →
      bs.foldl (fun a b => a + (if b.skip then 0 else b.num_words)) a ≤
        bs.foldl (fun a b => a + b.num_words) c := by
  intro bs
  induction bs with
  | nil => intro a c h; simpa using h
  | cons b bs ih =>
    intro a c h
    apply ih
    cases hb : b.skip <;> simp [hb] <;> omega

/-- With no skip-flagged block the two folds agree (auxiliary for C4). -/
theorem foldl_partial_eq_full :
    ∀ (bs : List Block), (∀ b ∈ bs, b.skip = false) →
      ∀ a, bs.foldl (fun a b => a + (if b.skip then 0 else b.num_words)) a =
        bs.foldl (fun a b => a + b.num_words) a := by
  intro bs
  induction bs with
  | nil => intro _ _; rfl
  | cons b bs ih =>
    intro h a
    have hb : b.skip = false := h b (List.mem_cons_self _ _)
    simp only [List.foldl_cons, hb, if_neg Bool.false_ne_true]
    exact ih (fun x hx => h x (List.mem_cons_of_mem _ hx)) _

/-- C4: whenever `word_count` returns, the full total is at least the
partial total, with equality when no block is skip-flagged. -/
theorem c4_full_ge_partial :
    ∀ (docLines ss : List (List Char)) (bs : List Block) (p t : Nat),
      word_count docLines ss = some (bs, p, t) →
        p ≤ t ∧ ((∀ b ∈ bs, b.skip = false) → p = t) := by
  intro doc ss bs p t h
  rw [word_count] at h
  cases hscan : scanAux ⟨[], [], 0⟩ doc with
  | none => rw [hscan] at h; cases h
  | some st =>
    rw [hscan] at h
    simp only [Option.some.injEq, Prod.mk.injEq] at h
    obtain ⟨hbs, hp, ht⟩ := h
    subst hbs hp ht
    exact ⟨foldl_partial_le_full _ 0 0 (Nat.le_refl 0),
      fun hsk => foldl_partial_eq_full _ hsk 0⟩

/-- C4 witness: a one-block document with two words and no skip sections. -/
theorem c4_full_ge_partial_witness :
    (word_count ["# T".toList, "a b".toList] [] =
      some ([⟨"T".toList, 0, ["a b".toList], 2, false⟩], 2, 2)) ∧
    (2 ≤ 2 ∧ ((∀ b ∈ [(⟨"T".toList, 0, ["a b".toList], 2, false⟩ : Block)],
      b.skip = false) → 2 = 2)) :=
  ⟨by decide,
    c4_full_ge_partial ["# T".toList, "a b".toList] []
      [⟨"T".toList, 0, ["a b".toList], 2, false⟩] 2 2 (by decide)⟩


/-- On a skip line `stepLine` keeps `len_last_line` and performs only the
heading fold (the `continue` in the source). -/
theorem stepLine_skip (st : ScanState) (l : List Char)
    (hskip : D_SKIP_TOKENS.any (fun t => startsTok t l) = true) :
    stepLine st l =
      some ⟨((enumFromTok 0 D_HDR_TOKENS).foldl (hdrStep l) (st.blocks, st.lines)).1,
        ((enumFromTok 0 D_HDR_TOKENS).foldl (hdrStep l) (st.blocks, st.lines)).2,
        st.len_last_line⟩ := by
  simp only [stepLine, hskip, if_true]

/-- On a non-skip line that is not recognized as a Setext underline,
`stepLine` appends the line to the body when non-empty and cannot fail. -/
theorem stepLine_noSetext (st : ScanState) (l : List Char)
    (hskip : D_SKIP_TOKENS.any (fun t => startsTok t l) = false)
    (h0 : (l.length == st.len_last_line && startsTok ['=', '='] l) = false)
    (h1 : (l.length == st.len_last_line && startsTok ['-', '-'] l) = false) :
    stepLine st l =
      some ⟨((enumFromTok 0 D_HDR_TOKENS).foldl (hdrStep l) (st.blocks, st.lines)).1,
        if 0 < l.length then
          ((enumFromTok 0 D_HDR_TOKENS).foldl (hdrStep l) (st.blocks, st.lines)).2 ++ [l]
        else ((enumFromTok 0 D_HDR_TOKENS).foldl (hdrStep l) (st.blocks, st.lines)).2,
        l.length⟩ := by
  simp only [stepLine, hskip, D_HDR_TOKENS_NL, enumFromTok, List.foldl, h0,
    Bool.or_false, Bool.false_or, h1, Bool.false_eq_true, if_false]
  by_cases hl : 0 < l.length <;> simp [hl]

/-- Under `noHeadings` the scan keeps the block list empty and cannot fail
(auxiliary for C3). -/
theorem scanAux_noHeadings :
    ∀ (ls lines : List (List Char)) (llll : Nat),
      noHeadings llll ls = true →
      ∃ lines' llll', scanAux ⟨[], lines, llll⟩ ls = some ⟨[], lines', llll'⟩ := by
  intro ls
  induction ls with
  | nil => intro lines llll _; exact ⟨lines, llll, rfl⟩
  | cons l ls ih =>
    intro lines llll h
    rw [noHeadings, Bool.and_eq_true, Bool.not_eq_true'] at h
    obtain ⟨hatx, hrest⟩ := h
    have hfold : (enumFromTok 0 D_HDR_TOKENS).foldl (hdrStep l) ([], lines) = ([], lines) := by
      apply foldl_hdrStep_id
      intro it hit
      rw [List.any_eq_false] at hatx
      simpa using hatx it.2 (snd_mem_of_mem_enumFromTok 0 D_HDR_TOKENS it hit)
    by_cases hskip : D_SKIP_TOKENS.any (fun t => startsTok t l) = true
    · rw [hskip, if_pos rfl] at hrest
      rw [scanAux, stepLine_skip ⟨[], lines, llll⟩ l hskip]
      simp only [hfold]
      exact ih lines llll hrest
    · rw [Bool.not_eq_true] at hskip
      rw [hskip] at hrest
      simp only [Bool.false_eq_true, if_false, Bool.and_eq_true, Bool.not_eq_true'] at hrest
      obtain ⟨hnl, hrest⟩ := hrest
      simp only [D_HDR_TOKENS_NL, List.any_cons, List.any_nil, Bool.or_false,
        Bool.or_eq_false_iff] at hnl
      rw [scanAux, stepLine_noSetext ⟨[], lines, llll⟩ l hskip hnl.1 hnl.2]
      simp only [hfold]
      by_cases hl : 0 < l.length
      · rw [if_pos hl]
        exact ih (lines ++ [l]) l.length hrest
      · rw [if_neg hl]
        exact ih lines l.length hrest

/-- C3: a document in which no line is recognized as a heading produces an
empty block list and zero for both word-count totals. -/
theorem c3_no_headings :
    ∀ (docLines ss : List (List Char)),
      noHeadings 0 docLines = true → word_count docLines ss = some ([], 0, 0) := by
  intro doc ss h
  obtain ⟨lines', llll', hs⟩ := scanAux_noHeadings doc [] 0 h
  rw [word_count, hs]
  rfl

/-- C3 witness: a three-line document with no headings. -/
theorem c3_no_headings_witness :
    noHeadings 0 ["hello world".toList, "".toList, "foo bar".toList] = true ∧
    word_count ["hello world".toList, "".toList, "foo bar".toList] D_SKIP_SECTIONS =
      some ([], 0, 0) :=
  ⟨by decide, c3_no_headings ["hello world".toList, "".toList, "foo bar".toList]
    D_SKIP_SECTIONS (by decide)⟩

/-- When no line of the remaining document starts with a Setext underline
token, the scan cannot reach the unguarded pop and therefore cannot fail
(auxiliary for C10). -/
theorem scanAux_no_underline :
    ∀ (ls : List (List Char)) (st : ScanState),
      (∀ l ∈ ls, startsTok ['=', '='] l = false ∧ startsTok ['-', '-'] l = false) →
      ∃ st', scanAux st ls = some st' := by
  intro ls
  induction ls with
  | nil => intro st _; exact ⟨st, rfl⟩
  | cons l ls ih =>
    intro st h
    have hl := h l (List.mem_cons_self _ _)
    have hrest : ∀ x ∈ ls, startsTok ['=', '='] x = false ∧ startsTok ['-', '-'] x = false :=
      fun x hx => h x (List.mem_cons_of_mem _ hx)
    by_cases hskip : D_SKIP_TOKENS.any (fun t => startsTok t l) = true
    · rw [scanAux, stepLine_skip st l hskip]
      exact ih _ hrest
    · rw [Bool.not_eq_true] at hskip
      rw [scanAux, stepLine_noSetext st l hskip (by rw [hl.1, Bool.and_false])
        (by rw [hl.2, Bool.and_false])]
      exact ih _ hrest

/-- C10 (amended): the pop in the Setext branch is unguarded, so
`word_count` does raise `IndexError` on some inputs (see the
counterexample); it does return normally on every document in which no
line starts with one of the underline tokens `==` or `--`, since the
Setext branch is then never entered. -/
theorem c10_amended_no_underline_safe :
    ∀ (docLines ss : List (List Char)),
      (∀ l ∈ docLines, startsTok ['=', '='] l = false ∧ startsTok ['-', '-'] l = false) →
      (word_count docLines ss).isSome = true := by
  intro doc ss h
  obtain ⟨st', hs⟩ := scanAux_no_underline doc ⟨[], [], 0⟩ h
  rw [word_count, hs]
  rfl

/-- C10 witness: a small document without underline tokens. -/
theorem c10_amended_witness :
    (∀ l ∈ [("# A".toList : List Char), "ab".toList],
      startsTok ['=', '='] l = false ∧ startsTok ['-', '-'] l = false) ∧
    (word_count ["# A".toList, "ab".toList] [] ).isSome = true :=
  ⟨by decide, c10_amended_no_underline_safe ["# A".toList, "ab".toList] [] (by decide)⟩

theorem splitNl_ne_nil : ∀ x : List Char, splitNl x ≠ [] := by
  intro x
  cases x with
  | nil => simp [splitNl]
  | cons c cs =>
    rw [splitNl]
    by_cases h : c = '\n'
    · simp [h]
    · simp only [if_neg h]
      cases hs : splitNl cs with
      | nil => simp
      | cons s ss => simp

theorem splitNl_append_nl :
    ∀ x y : List Char, splitNl (x ++ '\n' :: y) = splitNl x ++ splitNl y := by
  intro x y
  induction x with
  | nil => simp [splitNl]
  | cons c cs ih =>
    by_cases h : c = '\n'
    · subst h
      rw [List.cons_append, splitNl, if_pos rfl, ih, splitNl, if_pos rfl,
        List.cons_append]
    · rw [List.cons_append, splitNl, if_neg h, ih, splitNl, if_neg h]
      cases hs : splitNl cs with
      | nil => exact absurd hs (splitNl_ne_nil cs)
      | cons s ss => simp

theorem splitNl_no_nl : ∀ x : List Char, '\n' ∉ x → splitNl x = [x] := by
  intro x
  induction x with
  | nil => intro _; rfl
  | cons c cs ih =>
    intro h
    have hc : c ≠ '\n' := fun hc => h (hc ▸ List.mem_cons_self _ _)
    rw [splitNl, if_neg hc, ih (fun hm => h (List.mem_cons_of_mem _ hm))]

theorem countNE_append_nl (x y : List Char) :
    countNonEmptyLines (x ++ '\n' :: y) =
      countNonEmptyLines x + countNonEmptyLines y := by
  rw [countNonEmptyLines, splitNl_append_nl, List.filter_append, List.length_append]
  rfl

theorem countNE_cons_nl (x : List Char) :
    countNonEmptyLines ('\n' :: x) = countNonEmptyLines x := by
  have h := countNE_append_nl [] x
  have h0 : countNonEmptyLines [] = 0 := rfl
  rw [List.nil_append, h0, Nat.zero_add] at h
  exact h

theorem countNE_no_nl (x : List Char) (h : '\n' ∉ x) :
    countNonEmptyLines x = if x = [] then 0 else 1 := by
  rw [countNonEmptyLines, splitNl_no_nl x h]
  by_cases hx : x = []
  · simp [hx]
  · simp [hx, List.isEmpty_iff]

theorem countNE_pyJoin :
    ∀ lines : List (List Char), lines ≠ [] → (∀ l ∈ lines, l ≠ [] ∧ '\n' ∉ l) →
      countNonEmptyLines (pyJoin ['\n'] lines) = lines.length := by
  intro lines
  induction lines with
  | nil => intro h _; exact absurd rfl h
  | cons l ls ih =>
    intro _ h
    cases ls with
    | nil =>
      have hl := h l (List.mem_cons_self _ _)
      rw [pyJoin, countNE_no_nl l hl.2, if_neg hl.1]
      rfl
    | cons l2 ls2 =>
      have hl := h l (List.mem_cons_self _ _)
      have hih := ih (List.cons_ne_nil _ _) (fun x hx => h x (List.mem_cons_of_mem _ hx))
      rw [pyJoin, List.append_assoc, List.cons_append, List.nil_append,
        countNE_append_nl, countNE_no_nl l hl.2, if_neg hl.1, hih]
      simp [List.length_cons]
      omega

theorem getLastD_mem :
    ∀ (l : List (List Char)) (d : List Char), l ≠ [] → l.getLastD d ∈ l := by
  intro l
  induction l with
  | nil => intro d h; exact absurd rfl h
  | cons x xs ih =>
    intro d _
    cases xs with
    | nil => simp [List.getLastD]
    | cons y ys =>
      rw [List.getLastD_cons]
      exact List.mem_cons_of_mem _ (ih x (List.cons_ne_nil _ _))

theorem hasSubTok_of_startsTok (m s : List Char) (h : startsTok m s = true) :
    hasSubTok m s = true := by
  cases s with
  | nil => rw [hasSubTok]; exact h
  | cons c cs => rw [hasSubTok, h, Bool.true_or]

theorem hasSubTok_cons_of (m : List Char) (c : Char) (s : List Char)
    (h : hasSubTok m s = true) : hasSubTok m (c :: s) = true := by
  rw [hasSubTok, h, Bool.or_true]

theorem hasSubTok_append_left (m x s : List Char) (h : hasSubTok m s = true) :
    hasSubTok m (x ++ s) = true := by
  induction x with
  | nil => simpa using h
  | cons c cs ih => rw [List.cons_append]; exact hasSubTok_cons_of _ _ _ ih

theorem foldl_append_flatMap (f : List Char × Option Bool → List Char) :
    ∀ (ps : List (List Char × Option Bool)) (init : List Char),
      ps.foldl (fun acc p => acc ++ f p) init = init ++ ps.flatMap f := by
  intro ps
  induction ps with
  | nil => intro init; simp
  | cons p ps ih =>
    intro init
    rw [List.foldl_cons, ih, List.flatMap_cons, List.append_assoc]

theorem countNE_append_nl2 (x y : List Char) :
    countNonEmptyLines ((x ++ ['\n']) ++ y) =
      countNonEmptyLines x + countNonEmptyLines y := by
  rw [List.append_assoc, List.singleton_append]
  exact countNE_append_nl x y

theorem countNE_append_single (x : List Char) :
    countNonEmptyLines (x ++ ['\n']) = countNonEmptyLines x := by
  have h := countNE_append_nl x []
  simpa using h

theorem startsTok_append_right (m : List Char) :
    ∀ (s y : List Char), startsTok m s = true → startsTok m (s ++ y) = true := by
  induction m with
  | nil => intro s y _; rfl
  | cons t ts ih =>
    intro s y h
    cases s with
    | nil => exact absurd h (by rw [startsTok]; simp)
    | cons c cs =>
      simp only [List.cons_append, startsTok, Bool.and_eq_true] at h ⊢
      exact ⟨h.1, ih cs y h.2⟩

theorem hasSubTok_append_right (m : List Char) :
    ∀ (s y : List Char), hasSubTok m s = true → hasSubTok m (s ++ y) = true := by
  intro s
  induction s with
  | nil =>
    intro y h
    rw [hasSubTok] at h
    cases y with
    | nil => exact h
    | cons c cs =>
      rw [List.nil_append, hasSubTok]
      cases m with
      | nil => rfl
      | cons t ts => exact absurd h (by rw [startsTok]; simp)
  | cons c cs ih =>
    intro y h
    rw [hasSubTok, Bool.or_eq_true] at h
    rw [List.cons_append, hasSubTok, Bool.or_eq_true]
    rcases h with h | h
    · exact Or.inl (by rw [← List.cons_append]; exact startsTok_append_right _ _ _ h)
    · exact Or.inr (ih y h)

/-- C9 (amended): with the defaults used by `honolulu`, for non-empty
parallel description/verdict sequences (descriptions being non-empty,
newline-free strings) the plain report consists of exactly one non-blank
line per description plus a title line, a dash-separator line and a summary
line (`n + 3`, not `n + 2`); and the HTML report contains, for every
description/verdict pair, the full class-tagged span line built by
`htmlLine`, whose class is `green` iff the verdict is true. -/
theorem c9_amended_report_shape :
    ∀ (lines : List (List Char)) (tests : List (Option Bool)),
      lines ≠ [] → (∀ l ∈ lines, l ≠ [] ∧ '\n' ∉ l) →
      countNonEmptyLines (gen_report lines tests false) = lines.length + 3 ∧
      (∀ l t, (l, t) ∈ lines.zip tests →
        hasSubTok (htmlLine l t) (gen_report lines tests true) = true) ∧
      (∀ t, attrOf t = "green".toList ↔ t = some true) := by
  intro lines tests hne hlines
  refine ⟨?_, ?_, ?_⟩
  · have hlast := getLastD_mem lines [] hne
    have hlen : 0 < (lines.getLastD []).length :=
      List.length_pos.mpr (hlines _ hlast).1
    have hrepnl : '\n' ∉ List.replicate (lines.getLastD []).length '-' := by
      intro hm
      exact absurd (List.eq_of_mem_replicate hm) (by decide)
    have hrepne : List.replicate (lines.getLastD []).length '-' ≠ [] := by
      intro hnil
      have h0 := congrArg List.length hnil
      rw [List.length_replicate, List.length_nil] at h0
      omega
    have hrep : countNonEmptyLines
        (List.replicate (lines.getLastD []).length '-') = 1 := by
      rw [countNE_no_nl _ hrepnl, if_neg hrepne]
    have hfinbase : ("Final Result: ".toList ++ resultWord (final_test tests)) ≠ [] := by
      cases hft : final_test tests <;> simp [resultWord]
    have hpadnl : '\n' ∉ padLeftTo
        ("Final Result: ".toList ++ resultWord (final_test tests))
        (lines.getLastD []).length := by
      rw [padLeftTo]
      intro hm
      rcases List.mem_append.mp hm with hm | hm
      · exact absurd (List.eq_of_mem_replicate hm) (by decide)
      · rcases List.mem_append.mp hm with hm | hm
        · exact absurd hm (by decide)
        · cases hft : final_test tests <;> rw [hft] at hm <;>
            exact absurd hm (by decide)
    have hpadne : padLeftTo
        ("Final Result: ".toList ++ resultWord (final_test tests))
        (lines.getLastD []).length ≠ [] := by
      rw [padLeftTo]
      intro hnil
      exact hfinbase (List.append_eq_nil.mp hnil).2
    have hfin : countNonEmptyLines
        (padLeftTo ("Final Result: ".toList ++ resultWord (final_test tests))
          (lines.getLastD []).length) = 1 := by
      rw [countNE_no_nl _ hpadnl, if_neg hpadne]
    have hhdr : countNonEmptyLines
        (['\n', '\n'] ++ D_HDR_TOKENS.getD 1 [] ++ "Test Results".toList) = 1 := by
      decide
    have hjoin := countNE_pyJoin lines hne hlines
    simp only [gen_report, Bool.false_eq_true, if_false, if_neg hne,
      List.append_nil]
    rw [countNE_append_nl2, countNE_append_nl2, countNE_append_single,
      countNE_append_nl2, hhdr, hjoin, hrep, hfin]
    omega
  · intro l t hp
    obtain ⟨s1, s2, hsplit⟩ := List.append_of_mem hp
    simp only [gen_report, eq_self_iff_true, if_true, if_neg hne]
    rw [foldl_append_flatMap, List.nil_append, hsplit, List.flatMap_append,
      List.flatMap_cons]
    apply hasSubTok_append_right
    apply hasSubTok_append_right
    apply hasSubTok_append_right
    apply hasSubTok_append_right
    apply hasSubTok_append_right
    apply hasSubTok_append_right
    apply hasSubTok_append_right
    apply hasSubTok_append_left
    apply hasSubTok_append_left
    exact hasSubTok_of_startsTok _ _ (startsTok_self_append _ _)
  · intro t
    rcases t with _ | b
    · decide
    · cases b <;> decide

/-- C9 witness: one description, one passing verdict. -/
theorem c9_amended_witness :
    (["ab".toList] ≠ ([] : List (List Char))) ∧
    (∀ l ∈ [("ab".toList : List Char)], l ≠ [] ∧ '\n' ∉ l) ∧
    (countNonEmptyLines (gen_report ["ab".toList] [some true] false) =
        [("ab".toList : List Char)].length + 3 ∧
      (∀ l t, (l, t) ∈ [("ab".toList : List Char)].zip [some true] →
        hasSubTok (htmlLine l t) (gen_report ["ab".toList] [some true] true) = true) ∧
      (∀ t, attrOf t = "green".toList ↔ t = some true)) :=
  ⟨by decide, by decide,
    c9_amended_report_shape ["ab".toList] [some true] (by decide) (by decide)⟩

/-- The Setext trigger condition of `word_count` for a given previous-line
length: the disjunction computed by the `for i, token in
enumerate(hdr_tokens_nl)` loop. -/
def setextFire (llll : Nat) (l : List Char) : Bool :=
  (l.length == llll && startsTok ['=', '='] l) ||
    (l.length == llll && startsTok ['-', '-'] l)

theorem q_foldl_eval (llll : Nat) (l : List Char) :
    (enumFromTok 0 D_HDR_TOKENS_NL).foldl
      (fun (r : Bool × Nat) (it : Nat × List Char) =>
        (r.1 || (l.length == llll && startsTok it.2 l), it.1)) (false, 0) =
      (setextFire llll l, 1) := by
  simp [D_HDR_TOKENS_NL, enumFromTok, setextFire]

theorem stepLine_pop_some (st : ScanState) (l : List Char)
    (P : List ScanBlock × List (List Char))
    (hP : (enumFromTok 0 D_HDR_TOKENS).foldl (hdrStep l) (st.blocks, st.lines) = P)
    (hskip : D_SKIP_TOKENS.any (fun t => startsTok t l) = false)
    (hfire : setextFire st.len_last_line l = true)
    (title : List Char) (hlast : P.2.getLast? = some title) :
    stepLine st l = some ⟨(openBlock P.1 P.2.dropLast title 1).1,
      (openBlock P.1 P.2.dropLast title 1).2, l.length⟩ := by
  simp only [stepLine, hP, hskip, Bool.false_eq_true, if_false, q_foldl_eval,
    hfire, if_true, hlast]

theorem stepLine_pop_none (st : ScanState) (l : List Char)
    (P : List ScanBlock × List (List Char))
    (hP : (enumFromTok 0 D_HDR_TOKENS).foldl (hdrStep l) (st.blocks, st.lines) = P)
    (hskip : D_SKIP_TOKENS.any (fun t => startsTok t l) = false)
    (hfire : setextFire st.len_last_line l = true)
    (hlast : P.2.getLast? = none) :
    stepLine st l = none := by
  simp only [stepLine, hP, hskip, Bool.false_eq_true, if_false, q_foldl_eval,
    hfire, if_true, hlast]

theorem stepLine_body (st : ScanState) (l : List Char)
    (P : List ScanBlock × List (List Char))
    (hP : (enumFromTok 0 D_HDR_TOKENS).foldl (hdrStep l) (st.blocks, st.lines) = P)
    (hskip : D_SKIP_TOKENS.any (fun t => startsTok t l) = false)
    (hfire : setextFire st.len_last_line l = false) :
    stepLine st l =
      some ⟨P.1, if 0 < l.length then P.2 ++ [l] else P.2, l.length⟩ := by
  simp only [stepLine, hP, hskip, Bool.false_eq_true, if_false, q_foldl_eval,
    hfire]
  by_cases hl : 0 < l.length <;> simp [hl]

theorem stepLineDrop_skip (st : ScanState) (l : List Char)
    (hskip : D_SKIP_TOKENS.any (fun t => startsTok t l) = true) :
    stepLineDrop st l =
      some ⟨((enumFromTok 0 D_HDR_TOKENS).foldl (hdrStepDrop l) (st.blocks, st.lines)).1,
        ((enumFromTok 0 D_HDR_TOKENS).foldl (hdrStepDrop l) (st.blocks, st.lines)).2,
        st.len_last_line⟩ := by
  simp only [stepLineDrop, hskip, if_true]

theorem stepLineDrop_pop_some (st : ScanState) (l : List Char)
    (P : List ScanBlock × List (List Char))
    (hP : (enumFromTok 0 D_HDR_TOKENS).foldl (hdrStepDrop l) (st.blocks, st.lines) = P)
    (hskip : D_SKIP_TOKENS.any (fun t => startsTok t l) = false)
    (hfire : setextFire st.len_last_line l = true)
    (title : List Char) (hlast : P.2.getLast? = some title) :
    stepLineDrop st l = some ⟨(openBlockDrop P.1 P.2.dropLast title 1).1,
      (openBlockDrop P.1 P.2.dropLast title 1).2, l.length⟩ := by
  simp only [stepLineDrop, hP, hskip, Bool.false_eq_true, if_false, q_foldl_eval,
    hfire, if_true, hlast]

theorem stepLineDrop_pop_none (st : ScanState) (l : List Char)
    (P : List ScanBlock × List (List Char))
    (hP : (enumFromTok 0 D_HDR_TOKENS).foldl (hdrStepDrop l) (st.blocks, st.lines) = P)
    (hskip : D_SKIP_TOKENS.any (fun t => startsTok t l) = false)
    (hfire : setextFire st.len_last_line l = true)
    (hlast : P.2.getLast? = none) :
    stepLineDrop st l = none := by
  simp only [stepLineDrop, hP, hskip, Bool.false_eq_true, if_false, q_foldl_eval,
    hfire, if_true, hlast]

theorem stepLineDrop_body (st : ScanState) (l : List Char)
    (P : List ScanBlock × List (List Char))
    (hP : (enumFromTok 0 D_HDR_TOKENS).foldl (hdrStepDrop l) (st.blocks, st.lines) = P)
    (hskip : D_SKIP_TOKENS.any (fun t => startsTok t l) = false)
    (hfire : setextFire st.len_last_line l = false) :
    stepLineDrop st l =
      some ⟨P.1, if 0 < l.length then P.2 ++ [l] else P.2, l.length⟩ := by
  simp only [stepLineDrop, hP, hskip, Bool.false_eq_true, if_false, q_foldl_eval,
    hfire]
  by_cases hl : 0 < l.length <;> simp [hl]

/-- Simulation relation between the scan state of the source (`openBlock`)
and of the claim-variant (`openBlockDrop`): before any heading the states
agree (`phaseA`); once the first block is open the source side carries the
pre-first-heading lines `pre` at the front of its accumulator (`phaseB1`);
once the first block is closed, `pre` sits at the front of the first
block's text and everything else agrees (`phaseB2`). -/
inductive PreRel :
    List ScanBlock × List (List Char) → List ScanBlock × List (List Char) → Prop
  | phaseA (lines : List (List Char)) : PreRel ([], lines) ([], lines)
  | phaseB1 (pre : List (List Char)) (b : ScanBlock) (cl sl : List (List Char))
      (h : cl = pre ++ sl) : PreRel ([b], cl) ([b], sl)
  | phaseB2 (pre : List (List Char)) (b c : ScanBlock) (r : List ScanBlock)
      (hr : r ≠ []) (hc : c = { b with text := pre ++ b.text })
      (sl : List (List Char)) : PreRel (c :: r, sl) (b :: r, sl)

theorem setLastText_cons_ne (x : ScanBlock) (r : List ScanBlock)
    (hr : r ≠ []) (ls : List (List Char)) :
    setLastText (x :: r) ls = x :: setLastText r ls := by
  cases r with
  | nil => exact absurd rfl hr
  | cons y ys => rfl

theorem openBlock_rel (cb sb : List ScanBlock) (cl sl : List (List Char))
    (ttl : List Char) (lv : Nat) (h : PreRel (cb, cl) (sb, sl)) :
    PreRel (openBlock cb cl ttl lv) (openBlockDrop sb sl ttl lv) := by
  cases h with
  | phaseA =>
    rw [openBlock, if_pos rfl, openBlockDrop]
    simp only [List.nil_append, setLastText]
    exact PreRel.phaseB1 cl _ cl [] (by rw [List.append_nil])
  | phaseB1 pre b cl2 sl2 hcl =>
    rw [openBlock, if_neg (by simp), openBlockDrop, setLastText, setLastText]
    subst hcl
    rw [List.cons_append, List.nil_append, List.cons_append, List.nil_append]
    exact PreRel.phaseB2 pre { b with text := sl } _ [⟨ttl, lv, []⟩]
      (List.cons_ne_nil _ _) rfl []
  | phaseB2 pre b c r hr hc sl2 =>
    rw [openBlock, if_neg (by simp), openBlockDrop,
      setLastText_cons_ne c r hr, setLastText_cons_ne b r hr,
      List.cons_append, List.cons_append]
    exact PreRel.phaseB2 pre b c (setLastText r cl ++ [⟨ttl, lv, []⟩])
      (by simp) hc []

theorem fold_rel (l : List Char) :
    ∀ (toks : List (Nat × List Char)) (p q : List ScanBlock × List (List Char)),
      PreRel p q →
      PreRel (toks.foldl (hdrStep l) p) (toks.foldl (hdrStepDrop l) q) := by
  intro toks
  induction toks with
  | nil => intro p q h; exact h
  | cons it toks ih =>
    intro p q h
    rw [List.foldl_cons, List.foldl_cons]
    apply ih
    rw [hdrStep, hdrStepDrop]
    by_cases hm : startsTok it.2 l = true
    · rw [if_pos hm, if_pos hm]
      exact openBlock_rel _ _ _ _ _ _ h
    · rw [if_neg hm, if_neg hm]
      exact h

theorem stepLine_rel (cst sst : ScanState) (l : List Char)
    (hlen : cst.len_last_line = sst.len_last_line)
    (hrel : PreRel (cst.blocks, cst.lines) (sst.blocks, sst.lines))
    (sst' : ScanState) (hdrop : stepLineDrop sst l = some sst') :
    ∃ cst', stepLine cst l = some cst' ∧
      cst'.len_last_line = sst'.len_last_line ∧
      PreRel (cst'.blocks, cst'.lines) (sst'.blocks, sst'.lines) := by
  have hPP := fold_rel l (enumFromTok 0 D_HDR_TOKENS) _ _ hrel
  set P := (enumFromTok 0 D_HDR_TOKENS).foldl (hdrStep l) (cst.blocks, cst.lines)
    with hPdef
  set Q := (enumFromTok 0 D_HDR_TOKENS).foldl (hdrStepDrop l) (sst.blocks, sst.lines)
    with hQdef
  clear_value P Q
  by_cases hskip : D_SKIP_TOKENS.any (fun t => startsTok t l) = true
  · have hstepD := stepLineDrop_skip sst l hskip
    rw [← hQdef] at hstepD
    rw [hstepD] at hdrop
    have hEq := Option.some.inj hdrop
    subst hEq
    have hstep := stepLine_skip cst l hskip
    rw [← hPdef] at hstep
    exact ⟨_, hstep, hlen, hPP⟩
  · have hskipF : D_SKIP_TOKENS.any (fun t => startsTok t l) = false := by
      rwa [Bool.not_eq_true] at hskip
    by_cases hfire : setextFire sst.len_last_line l = true
    · have hfireC : setextFire cst.len_last_line l = true := by
        rw [hlen]; exact hfire
      cases hPP with
      | phaseA lines =>
        cases hlast : lines.getLast? with
        | none =>
          rw [stepLineDrop_pop_none sst l ([], lines) hQdef.symm hskipF hfire
            hlast] at hdrop
          cases hdrop
        | some t =>
          rw [stepLineDrop_pop_some sst l ([], lines) hQdef.symm hskipF hfire
            t hlast] at hdrop
          have hEq := Option.some.inj hdrop
          subst hEq
          refine ⟨_, stepLine_pop_some cst l ([], lines) hPdef.symm hskipF
            hfireC t hlast, rfl, ?_⟩
          exact openBlock_rel _ _ _ _ _ _ (PreRel.phaseA lines.dropLast)
      | phaseB1 pre b cl sl hcl =>
        cases hlastS : sl.getLast? with
        | none =>
          rw [stepLineDrop_pop_none sst l ([b], sl) hQdef.symm hskipF hfire
            hlastS] at hdrop
          cases hdrop
        | some t =>
          have hslne : sl ≠ [] := by
            intro hnil
            rw [hnil] at hlastS
            simp at hlastS
          have hlastC : cl.getLast? = some t := by
            rw [hcl, List.getLast?_append, hlastS]
            rfl
          rw [stepLineDrop_pop_some sst l ([b], sl) hQdef.symm hskipF hfire
            t hlastS] at hdrop
          have hEq := Option.some.inj hdrop
          subst hEq
          refine ⟨_, stepLine_pop_some cst l ([b], cl) hPdef.symm hskipF
            hfireC t hlastC, rfl, ?_⟩
          have hdl : cl.dropLast = pre ++ sl.dropLast := by
            rw [hcl]
            exact List.dropLast_append_of_ne_nil _ hslne
          exact openBlock_rel _ _ _ _ _ _ (PreRel.phaseB1 pre b _ _ hdl)
      | phaseB2 pre b c r hr hc sl =>
        cases hlastS : sl.getLast? with
        | none =>
          rw [stepLineDrop_pop_none sst l (b :: r, sl) hQdef.symm hskipF hfire
            hlastS] at hdrop
          cases hdrop
        | some t =>
          rw [stepLineDrop_pop_some sst l (b :: r, sl) hQdef.symm hskipF hfire
            t hlastS] at hdrop
          have hEq := Option.some.inj hdrop
          subst hEq
          refine ⟨_, stepLine_pop_some cst l (c :: r, sl) hPdef.symm hskipF
            hfireC t hlastS, rfl, ?_⟩
          exact openBlock_rel _ _ _ _ _ _
            (PreRel.phaseB2 pre b c r hr hc sl.dropLast)
    · have hfireF : setextFire sst.len_last_line l = false := by
        rwa [Bool.not_eq_true] at hfire
      have hfireCF : setextFire cst.len_last_line l = false := by
        rw [hlen]; exact hfireF
      rw [stepLineDrop_body sst l Q hQdef.symm hskipF hfireF] at hdrop
      have hEq := Option.some.inj hdrop
      subst hEq
      refine ⟨_, stepLine_body cst l P hPdef.symm hskipF hfireCF, rfl, ?_⟩
      by_cases hl : 0 < l.length
      · rw [if_pos hl, if_pos hl]
        cases hPP with
        | phaseA lines => exact PreRel.phaseA (lines ++ [l])
        | phaseB1 pre b cl sl hcl =>
          exact PreRel.phaseB1 pre b _ _ (by rw [hcl, List.append_assoc])
        | phaseB2 pre b c r hr hc sl =>
          exact PreRel.phaseB2 pre b c r hr hc (sl ++ [l])
      · rw [if_neg hl, if_neg hl]
        exact hPP

theorem scanAux_rel :
    ∀ (ls : List (List Char)) (cst sst : ScanState),
      cst.len_last_line = sst.len_last_line →
      PreRel (cst.blocks, cst.lines) (sst.blocks, sst.lines) →
      ∀ sfin, scanAuxDrop sst ls = some sfin →
      ∃ cfin, scanAux cst ls = some cfin ∧
        PreRel (cfin.blocks, cfin.lines) (sfin.blocks, sfin.lines) := by
  intro ls
  induction ls with
  | nil =>
    intro cst sst hlen hrel sfin hdrop
    rw [scanAuxDrop] at hdrop
    have hEq := Option.some.inj hdrop
    subst hEq
    exact ⟨cst, rfl, hrel⟩
  | cons l ls ih =>
    intro cst sst hlen hrel sfin hdrop
    rw [scanAuxDrop] at hdrop
    cases hD : stepLineDrop sst l with
    | none => rw [hD] at hdrop; cases hdrop
    | some sst' =>
      rw [hD] at hdrop
      obtain ⟨cst', hstep, hlen', hrel'⟩ := stepLine_rel cst sst l hlen hrel sst' hD
      rw [scanAux, hstep]
      exact ih cst' sst' hlen' hrel' sfin hdrop

/-- C2 (amended): whenever the claim-faithful splitter `wordCountDropPre`
(which assigns the lines before the first heading to no block) succeeds,
the source `word_count` succeeds as well and returns the same blocks,
except that the first block's text carries some list `pre` of
pre-first-heading lines prepended; titles, levels and the whole tail of the
block list agree. -/
theorem c2_amended_pre_heading_lines :
    ∀ (docLines ss : List (List Char)) (bs' : List Block) (p' t' : Nat),
      wordCountDropPre docLines ss = some (bs', p', t') →
      ∃ bs p t, word_count docLines ss = some (bs, p, t) ∧
        ((bs = [] ∧ bs' = []) ∨
          ∃ (pre : List (List Char)) (b b' : Block) (r : List Block),
            bs = b :: r ∧ bs' = b' :: r ∧ b.title = b'.title ∧
            b.level = b'.level ∧ b.text = pre ++ b'.text) := by
  intro doc ss bs' p' t' h
  rw [wordCountDropPre] at h
  cases hscan : scanAuxDrop ⟨[], [], 0⟩ doc with
  | none => rw [hscan] at h; cases h
  | some sfin =>
    rw [hscan] at h
    simp only [Option.some.injEq, Prod.mk.injEq] at h
    obtain ⟨hbs', hp', ht'⟩ := h
    obtain ⟨cfin, hcscan, hrel⟩ := scanAux_rel doc ⟨[], [], 0⟩ ⟨[], [], 0⟩ rfl
      (PreRel.phaseA []) sfin hscan
    obtain ⟨cb, cl, cn⟩ := cfin
    obtain ⟨sb, sl, sn⟩ := sfin
    rw [word_count, hcscan]
    cases hrel with
    | phaseA =>
      exact ⟨[], 0, 0, rfl, Or.inl ⟨rfl, hbs'.symm⟩⟩
    | phaseB1 pre b cl2 sl2 hcl =>
      refine ⟨_, _, _, rfl, Or.inr ⟨pre, mkBlock ss { b with text := cl },
        mkBlock ss { b with text := sl }, [], rfl, hbs'.symm, rfl, rfl, ?_⟩⟩
      exact hcl
    | phaseB2 pre b c r hr hc =>
      dsimp only at hbs' ⊢
      rw [setLastText_cons_ne c r hr cl]
      rw [setLastText_cons_ne b r hr cl] at hbs'
      rw [List.map_cons] at hbs'
      refine ⟨_, _, _, rfl, Or.inr ⟨pre, mkBlock ss c, mkBlock ss b,
        (setLastText r cl).map (mkBlock ss), rfl, hbs'.symm, ?_, ?_, ?_⟩⟩
      · rw [hc]; rfl
      · rw [hc]; rfl
      · rw [hc]; rfl

/-- C2 witness: the amended theorem applied to a two-line document with one
ATX heading. -/
theorem c2_amended_witness :
    wordCountDropPre ["# T".toList, "x".toList] [] =
      some ([⟨"T".toList, 0, ["x".toList], 1, false⟩], 1, 1) ∧
    (∃ bs p t, word_count ["# T".toList, "x".toList] [] = some (bs, p, t) ∧
      ((bs = [] ∧ ([(⟨"T".toList, 0, ["x".toList], 1, false⟩ : Block)]) = []) ∨
        ∃ (pre : List (List Char)) (b b' : Block) (r : List Block),
          bs = b :: r ∧
          [(⟨"T".toList, 0, ["x".toList], 1, false⟩ : Block)] = b' :: r ∧
          b.title = b'.title ∧ b.level = b'.level ∧ b.text = pre ++ b'.text)) :=
  ⟨by decide,
    c2_amended_pre_heading_lines ["# T".toList, "x".toList] []
      [⟨"T".toList, 0, ["x".toList], 1, false⟩] 1 1 (by decide)⟩
